import Mathlib

/-!
# Verification of the MQTT fixed-header decoder (`src/lib.rs`)

Shallow embedding of the Rust crate's fixed-header decoder:

* `PacketType` / `PacketType.tryFrom` embed the `TryFrom<u8> for PacketType`
  conversion (`InvalidPacketTypeError(value)` becomes `Except.error value`).
* `packet_byte` embeds the nom parser `packet_byte` (`bits(tuple((take(4),
  take(4))))` followed by `map_res` over the conversion).  A nom
  `Err(Error(ErrorKind::Eof))` (from `complete::take` on insufficient input)
  is `PResult.err .eof`; a `map_res` failure is `PResult.err .mapRes`.
* `remaining_length` embeds the `remaining_length` loop.  Bytes are `Nat`s;
  the `i32` accumulator is an `Int` with explicit wrapping at `2^32`
  (`wrap32`).  Rust's checked (debug) arithmetic is modelled: a left shift
  whose amount is `≥ 32` and an addition whose result leaves the `i32`
  range are panics (`PResult.panic`); a left shift by an in-range amount
  discards bits shifted out of the 32-bit word (no panic), which `wrap32`
  captures.
* `FixedHeader.parse` embeds `FixedHeader::parse`.  The `println!`
  diagnostic loop at its start has no effect on the returned value and is
  omitted.

Input slices are `List Nat`, one element per byte; a byte `b` satisfies
`b < 256` where a theorem needs it.  `take(1)`/`take(7)` on a byte give its
most-significant bit `(b / 128) % 2` and low seven bits `b % 128`;
`take(4)`/`take(4)` give the nibbles `(b / 16) % 16` and `b % 16`.
-/

namespace MqttFixedHeader

/-- The MQTT control packet types (the Rust `enum PacketType`). -/
inductive PacketType : Type where
  | Connect
  | Connack
  | Publish
  | Puback
  | PubRec
  | PubRel
  | PubComp
  | Subscribe
  | Suback
  | Unsubscribe
  | Unsuback
  | PingReq
  | PingResp
  | Disconnect
deriving DecidableEq, Repr

/-- `TryFrom<u8> for PacketType`: `Err(InvalidPacketTypeError(value))` is
`Except.error value`. -/
def PacketType.tryFrom : Nat → Except Nat PacketType
  | 1 => .ok .Connect
  | 2 => .ok .Connack
  | 3 => .ok .Publish
  | 4 => .ok .Puback
  | 5 => .ok .PubRec
  | 6 => .ok .PubRel
  | 7 => .ok .PubComp
  | 8 => .ok .Subscribe
  | 9 => .ok .Suback
  | 10 => .ok .Unsubscribe
  | 11 => .ok .Unsuback
  | 12 => .ok .PingReq
  | 13 => .ok .PingResp
  | 14 => .ok .Disconnect
  | v => .error v

/-- The nom error kinds the two parsers can produce: `ErrorKind::Eof` from
`bits(complete::take(..))` on insufficient input, `ErrorKind::MapRes` from
`map_res` when the packet-type conversion fails. -/
inductive NomErrorKind : Type where
  | eof
  | mapRes
deriving DecidableEq, Repr

/-- Outcome of running an embedded parser on a byte slice: a nom
`Ok((rest, value))`, a nom `Err(Error(kind))`, or a Rust debug-mode
arithmetic-overflow panic. -/
inductive PResult (α : Type) : Type where
  | ok (rest : List Nat) (value : α)
  | err (kind : NomErrorKind)
  | panic
deriving DecidableEq, Repr

/-- Two's-complement wrap of an integer into the `i32` range. -/
def wrap32 (n : Int) : Int := (n + 2 ^ 31) % 2 ^ 32 - 2 ^ 31

/-- The loop body of the Rust `remaining_length`, one recursive step per
iteration.  Each iteration first reads a byte (`bits(tuple((take(1),
take(7))))`; empty input is a nom `Eof` error), then evaluates
`accumulator + ((length_value as i32) << index)` under checked (debug)
semantics: a shift amount `≥ 32` panics, and an addition overflowing `i32`
panics.  If the continuation bit is not 1 the loop breaks and returns the
accumulator; otherwise `index` grows by 7 and the loop continues. -/
def remainingLengthAux : List Nat → Int → Nat → PResult Int
  | [], _, _ => .err .eof
  | b :: rest, accumulator, index =>
      let continuation : Nat := (b / 128) % 2
      let lengthValue : Nat := b % 128
      if 32 ≤ index then
        .panic
      else
        let acc2 : Int := accumulator + wrap32 ((lengthValue : Int) * 2 ^ index)
        if acc2 < -(2 ^ 31) ∨ 2 ^ 31 ≤ acc2 then
          .panic
        else if continuation ≠ 1 then
          .ok rest acc2
        else
          remainingLengthAux rest acc2 (index + 7)

/-- The Rust `remaining_length`: run the loop from accumulator 0, index 0. -/
def remaining_length (input : List Nat) : PResult Int :=
  remainingLengthAux input 0 0

/-- The Rust `packet_byte`: split byte 0 into the packet-type nibble and the
flags nibble, then resolve the type, mapping a conversion failure to a nom
`MapRes` error. -/
def packet_byte (input : List Nat) : PResult (PacketType × Nat) :=
  match input with
  | [] => .err .eof
  | b :: rest =>
      match PacketType.tryFrom ((b / 16) % 16) with
      | .ok pt => .ok rest (pt, b % 16)
      | .error _ => .err .mapRes

/-- The Rust `struct FixedHeader`. -/
structure FixedHeader : Type where
  packet_type : PacketType
  packet_flags : Nat
  remaining_length : Int
deriving DecidableEq, Repr

/-- The Rust `FixedHeader::parse`: `packet_byte`, then `remaining_length`,
propagating errors (and panics) unchanged. -/
def FixedHeader.parse (input : List Nat) : PResult FixedHeader :=
  match packet_byte input with
  | .err k => .err k
  | .panic => .panic
  | .ok rest1 (pt, flags) =>
      match MqttFixedHeader.remaining_length rest1 with
      | .err k => .err k
      | .panic => .panic
      | .ok rest2 rl => .ok rest2 ⟨pt, flags, rl⟩

instance : DecidableEq (Except Nat PacketType) := fun a b =>
  match a, b with
  | .ok x, .ok y => decidable_of_iff (x = y) (by simp)
  | .ok _, .error _ => .isFalse (by simp)
  | .error _, .ok _ => .isFalse (by simp)
  | .error x, .error y => decidable_of_iff (x = y) (by simp)

/-! ## Claim theorems on concrete inputs -/

/-- C1: the claim says a fifth remaining-length byte with the continuation
bit set makes `FixedHeader::parse` fail with `MalformedVariableLength`, and
that a value is never decoded from more than 4 remaining-length bytes.  The
code has no such check: on `[0x10, 0x80, 0x80, 0x80, 0x80, 0x00]` it decodes
the value from 5 remaining-length bytes and succeeds, and on
`[0x10, 0x80, 0x80, 0x80, 0x80, 0x80, 0x00]` it reads the 5th continuation
byte, continues the loop, and panics on the 6th byte (left shift by 35). -/
theorem parse_has_no_malformed_length_check :
    FixedHeader.parse [0x10, 0x80, 0x80, 0x80, 0x80, 0x00] =
      .ok [] ⟨.Connect, 0, 0⟩ ∧
    FixedHeader.parse [0x10, 0x80, 0x80, 0x80, 0x80, 0x80, 0x00] =
      .panic := by
  exact ⟨by decide, by decide⟩

/-- C2: the claim says every successful `FixedHeader::parse` yields a
`remaining_length` in `[0, 268435455]`.  On `[0x20, 0xFF, 0xFF, 0xFF, 0xFF,
0x7F]` the parse succeeds with `remaining_length = -1`: the fifth encoded
byte is shifted by 28, the product `127 * 2^28` wraps the 32-bit word, and
the accumulator ends up negative. -/
theorem parse_success_with_negative_remaining_length :
    FixedHeader.parse [0x20, 0xFF, 0xFF, 0xFF, 0xFF, 0x7F] =
      .ok [] ⟨.Connack, 0, -1⟩ ∧
    ¬ (0 ≤ (-1 : Int) ∧ (-1 : Int) ≤ 268435455) := by
  exact ⟨by decide, by decide⟩

/-- C5: `PacketType::try_from` is a one-to-one total resolver on 4-bit
codes: each code 1–14 maps to its distinct variant, the mapping is
injective on 4-bit values, and every value outside 1–14 (in particular 0
and 15) yields `InvalidPacketTypeError` carrying that value. -/
theorem tryFrom_one_to_one :
    (PacketType.tryFrom 1 = .ok .Connect ∧
     PacketType.tryFrom 2 = .ok .Connack ∧
     PacketType.tryFrom 3 = .ok .Publish ∧
     PacketType.tryFrom 4 = .ok .Puback ∧
     PacketType.tryFrom 5 = .ok .PubRec ∧
     PacketType.tryFrom 6 = .ok .PubRel ∧
     PacketType.tryFrom 7 = .ok .PubComp ∧
     PacketType.tryFrom 8 = .ok .Subscribe ∧
     PacketType.tryFrom 9 = .ok .Suback ∧
     PacketType.tryFrom 10 = .ok .Unsubscribe ∧
     PacketType.tryFrom 11 = .ok .Unsuback ∧
     PacketType.tryFrom 12 = .ok .PingReq ∧
     PacketType.tryFrom 13 = .ok .PingResp ∧
     PacketType.tryFrom 14 = .ok .Disconnect) ∧
    (∀ v < 16, ∀ w < 16,
      PacketType.tryFrom v = PacketType.tryFrom w → v = w) ∧
    PacketType.tryFrom 0 = .error 0 ∧
    (∀ v, 15 ≤ v → PacketType.tryFrom v = .error v) := by
  refine ⟨by decide, by decide, by decide, ?_⟩
  intro v hv
  obtain ⟨k, rfl⟩ : ∃ k, v = k + 15 := ⟨v - 15, by omega⟩
  rfl

/-- Witness for C5 at concrete inputs: code 15 and code 20 are rejected
with the value carried in the error. -/
theorem tryFrom_one_to_one_witness :
    PacketType.tryFrom 20 = .error 20 :=
  tryFrom_one_to_one.2.2.2 20 (by decide)

/-- C8: Scenario 3 — `FixedHeader::parse` on `[0x3C, 0x82, 0x7F]` returns
`Publish`, flags `0x0C`, remaining length 16258, empty remainder. -/
theorem parse_scenario3 :
    FixedHeader.parse [0x3C, 0x82, 0x7F] = .ok [] ⟨.Publish, 0x0C, 16258⟩ := by
  decide

/-- C9: the claim says `remaining_length` always returns `Ok` or `Err`
without panicking and its shift amount stays below 32.  On six continuation
bytes the loop reaches `index = 35` with input left to read: the shift
`(length_value as i32) << 35` overflows (a debug-build panic; a masked,
wrong shift in release builds). -/
theorem remaining_length_shift_overflow :
    remaining_length [0x80, 0x80, 0x80, 0x80, 0x80, 0x80] = .panic := by
  decide

/-- C10: the remaining-length decoding accepts non-minimal encodings: the
distinct sequences `[0x81, 0x00]` and `[0x01]` both decode to 1 with empty
remainder. -/
theorem remaining_length_not_injective :
    remaining_length [0x81, 0x00] = .ok [] 1 ∧
    remaining_length [0x01] = .ok [] 1 ∧
    ([0x81, 0x00] : List Nat) ≠ [0x01] := by
  exact ⟨by decide, by decide, by decide⟩

/-- Counterexample to C4 as stated: on `[0x20, 0x80, 0x80, 0x80, 0x80,
0x00, 0xAA]` the parse succeeds after consuming 6 bytes (1 header byte and
5 remaining-length bytes), so the remainder begins more than 5 bytes into
the input. -/
theorem parse_consumes_six_bytes :
    FixedHeader.parse [0x20, 0x80, 0x80, 0x80, 0x80, 0x00, 0xAA] =
      .ok [0xAA] ⟨.Connack, 0, 0⟩ ∧
    ([0x20, 0x80, 0x80, 0x80, 0x80, 0x00, 0xAA] : List Nat).length =
      ([0xAA] : List Nat).length + 6 := by
  exact ⟨by decide, by decide⟩

/-- Counterexample to C6 as stated: `[0x20, 0x80, 0x80, 0x80, 0x80, 0x80,
0x80]` has every remaining-length byte's continuation bit set and ends
before a terminator, yet the parse panics (shift by 35) instead of failing
with the `Eof` error; and `[0x00]` also ends before a terminator is seen,
yet fails with the `MapRes` (invalid packet type) error, not `Eof`. -/
theorem parse_eof_not_exact_as_claimed :
    FixedHeader.parse [0x20, 0x80, 0x80, 0x80, 0x80, 0x80, 0x80] ≠
      .err .eof ∧
    FixedHeader.parse [0x20, 0x80, 0x80, 0x80, 0x80, 0x80, 0x80] = .panic ∧
    FixedHeader.parse [0x00] ≠ .err .eof ∧
    FixedHeader.parse [0x00] = .err .mapRes := by
  exact ⟨by decide, by decide, by decide, by decide⟩

/-! ## Helper lemmas -/

/-- `wrap32` is the identity on values already in the `i32` range. -/
theorem wrap32_eq_self (n : Int) (h1 : -(2 ^ 31) ≤ n) (h2 : n < 2 ^ 31) :
    wrap32 n = n := by
  unfold wrap32
  omega

/-- One loop iteration on a continuation byte (high bit set), when neither
the shift amount nor the accumulated addition overflows. -/
theorem remainingLengthAux_cont (b : Nat) (rest : List Nat) (acc : Int) (idx : Nat)
    (hb1 : 128 ≤ b) (hidx : idx < 32)
    (hr1 : -(2 ^ 31) ≤ acc + wrap32 (((b % 128 : Nat) : Int) * 2 ^ idx))
    (hr2 : acc + wrap32 (((b % 128 : Nat) : Int) * 2 ^ idx) < 2 ^ 31)
    (hb2 : b < 256) :
    remainingLengthAux (b :: rest) acc idx =
      remainingLengthAux rest (acc + wrap32 (((b % 128 : Nat) : Int) * 2 ^ idx)) (idx + 7) := by
  simp only [remainingLengthAux]
  rw [if_neg (by omega)]
  rw [if_neg (by omega)]
  rw [if_neg (by omega)]

/-- One loop iteration on a terminating byte (high bit clear): the loop
breaks and returns the updated accumulator with the rest of the input. -/
theorem remainingLengthAux_last (t : Nat) (rest : List Nat) (acc : Int) (idx : Nat)
    (ht : t < 128) (hidx : idx < 32)
    (hr1 : -(2 ^ 31) ≤ acc + wrap32 ((t : Int) * 2 ^ idx))
    (hr2 : acc + wrap32 ((t : Int) * 2 ^ idx) < 2 ^ 31) :
    remainingLengthAux (t :: rest) acc idx =
      .ok rest (acc + wrap32 ((t : Int) * 2 ^ idx)) := by
  have hmod : t % 128 = t := Nat.mod_eq_of_lt ht
  simp only [remainingLengthAux, hmod]
  rw [if_neg (by omega)]
  rw [if_neg (by omega)]
  rw [if_pos (by omega)]

/-- An iteration entered with shift amount ≥ 32 and a byte left to read
panics (checked left shift overflows). -/
theorem remainingLengthAux_panic_of_ge32 (b : Nat) (rest : List Nat) (acc : Int)
    (idx : Nat) (h : 32 ≤ idx) :
    remainingLengthAux (b :: rest) acc idx = .panic := by
  simp only [remainingLengthAux]
  rw [if_pos h]

/-- A successful run of the loop consumed `k + 1` bytes where the final
byte was processed at shift amount `idx + 7 * k < 32`. -/
theorem remainingLengthAux_ok_consumed (input : List Nat) :
    ∀ acc idx rest v, remainingLengthAux input acc idx = .ok rest v →
      ∃ k, input.length = rest.length + k + 1 ∧ idx + 7 * k < 32 := by
  induction input with
  | nil =>
      intro acc idx rest v h
      simp [remainingLengthAux] at h
  | cons b tl ih =>
      intro acc idx rest v h
      simp only [remainingLengthAux] at h
      split at h
      · exact PResult.noConfusion h
      · split at h
        · exact PResult.noConfusion h
        · split at h
          · injection h with h1 h2
            subst h1
            refine ⟨0, by simp, by omega⟩
          · obtain ⟨k, hk1, hk2⟩ := ih _ _ _ _ h
            refine ⟨k + 1, by simp [hk1]; omega, by omega⟩

/-- A successful `packet_byte` consumed exactly one byte. -/
theorem packet_byte_ok_consumed (input rest : List Nat) (pf : PacketType × Nat)
    (h : packet_byte input = .ok rest pf) : input.length = rest.length + 1 := by
  match input with
  | [] => simp [packet_byte] at h
  | b :: tl =>
      simp only [packet_byte] at h
      split at h
      · injection h with h1 h2
        subst h1
        simp
      · exact PResult.noConfusion h

/-- The loop on a remaining-length sequence that terminates within at most
4 bytes: it consumes exactly the bytes up to and including the terminator
and returns the base-128 little-end-first value of their low 7 bits. -/
theorem remaining_length_terminated_eq (pre : List Nat) (t : Nat) (rest : List Nat)
    (hlen : pre.length ≤ 3)
    (hpre : ∀ b ∈ pre, 128 ≤ b ∧ b < 256)
    (ht : t < 128) :
    remaining_length (pre ++ t :: rest) =
      .ok rest (∑ i ∈ Finset.range (pre.length + 1),
        (((pre ++ [t]).getD i 0 % 128 : Nat) : Int) * 128 ^ i) := by
  unfold remaining_length
  rcases pre with _ | ⟨a, _ | ⟨b, _ | ⟨c, _ | ⟨d, tl⟩⟩⟩⟩
  · simp only [List.nil_append]
    rw [remainingLengthAux_last t rest 0 0 ht (by norm_num)
      (by unfold wrap32; omega) (by unfold wrap32; omega)]
    apply congrArg
    simp [Finset.sum_range_succ]
    unfold wrap32
    omega
  · obtain ⟨ha1, ha2⟩ := hpre a (by simp)
    simp only [List.cons_append, List.nil_append]
    rw [remainingLengthAux_cont a _ 0 0 ha1 (by norm_num)
        (by unfold wrap32; omega) (by unfold wrap32; omega) ha2,
      wrap32_eq_self (((a % 128 : Nat) : Int) * 2 ^ 0) (by omega) (by omega)]
    rw [remainingLengthAux_last t rest _ 7 ht (by norm_num)
      (by unfold wrap32; omega) (by unfold wrap32; omega)]
    apply congrArg
    simp [Finset.sum_range_succ]
    unfold wrap32
    omega
  · obtain ⟨ha1, ha2⟩ := hpre a (by simp)
    obtain ⟨hb1, hb2⟩ := hpre b (by simp)
    simp only [List.cons_append, List.nil_append]
    rw [remainingLengthAux_cont a _ 0 0 ha1 (by norm_num)
        (by unfold wrap32; omega) (by unfold wrap32; omega) ha2,
      wrap32_eq_self (((a % 128 : Nat) : Int) * 2 ^ 0) (by omega) (by omega)]
    rw [remainingLengthAux_cont b _ _ 7 hb1 (by norm_num)
        (by unfold wrap32; omega) (by unfold wrap32; omega) hb2,
      wrap32_eq_self (((b % 128 : Nat) : Int) * 2 ^ 7) (by omega) (by omega)]
    rw [remainingLengthAux_last t rest _ 14 ht (by norm_num)
      (by unfold wrap32; omega) (by unfold wrap32; omega)]
    apply congrArg
    simp [Finset.sum_range_succ]
    unfold wrap32
    omega
  · obtain ⟨ha1, ha2⟩ := hpre a (by simp)
    obtain ⟨hb1, hb2⟩ := hpre b (by simp)
    obtain ⟨hc1, hc2⟩ := hpre c (by simp)
    simp only [List.cons_append, List.nil_append]
    rw [remainingLengthAux_cont a _ 0 0 ha1 (by norm_num)
        (by unfold wrap32; omega) (by unfold wrap32; omega) ha2,
      wrap32_eq_self (((a % 128 : Nat) : Int) * 2 ^ 0) (by omega) (by omega)]
    rw [remainingLengthAux_cont b _ _ 7 hb1 (by norm_num)
        (by unfold wrap32; omega) (by unfold wrap32; omega) hb2,
      wrap32_eq_self (((b % 128 : Nat) : Int) * 2 ^ 7) (by omega) (by omega)]
    rw [remainingLengthAux_cont c _ _ 14 hc1 (by norm_num)
        (by unfold wrap32; omega) (by unfold wrap32; omega) hc2,
      wrap32_eq_self (((c % 128 : Nat) : Int) * 2 ^ 14) (by omega) (by omega)]
    rw [remainingLengthAux_last t rest _ 21 ht (by norm_num)
      (by unfold wrap32; omega) (by unfold wrap32; omega)]
    apply congrArg
    simp [Finset.sum_range_succ]
    unfold wrap32
    omega
  · simp at hlen

/-- Characterization of the loop returning the nom `Eof` error, for byte
inputs entered at an in-range shift amount: it happens exactly when every
byte present has its continuation bit set and there are too few bytes to
reach the overflowing sixth iteration. -/
theorem remainingLengthAux_eof_iff (input : List Nat) :
    ∀ acc idx, (∀ b ∈ input, b < 256) → idx % 7 = 0 → idx ≤ 28 →
      0 ≤ acc → acc < 2 ^ idx →
      (remainingLengthAux input acc idx = .err .eof ↔
        ((∀ b ∈ input, 128 ≤ b) ∧ idx + 7 * input.length ≤ 35)) := by
  induction input with
  | nil =>
      intro acc idx _ _ hidx _ _
      simp only [remainingLengthAux, List.not_mem_nil, List.length_nil]
      constructor
      · intro _
        exact ⟨by intro x hx; exact absurd hx (by simp), by omega⟩
      · intro _
        trivial
  | cons b tl ih =>
      intro acc idx hbytes h7 hidx hacc1 hacc2
      have hb : b < 256 := hbytes b (by simp)
      have hc5 : idx = 0 ∨ idx = 7 ∨ idx = 14 ∨ idx = 21 ∨ idx = 28 := by omega
      simp only [remainingLengthAux]
      rw [if_neg (by omega)]
      have hnp : ¬ (acc + wrap32 (((b % 128 : Nat) : Int) * 2 ^ idx) < -(2 ^ 31) ∨
          2 ^ 31 ≤ acc + wrap32 (((b % 128 : Nat) : Int) * 2 ^ idx)) := by
        rcases hc5 with rfl | rfl | rfl | rfl | rfl <;> (unfold wrap32; omega)
      rw [if_neg hnp]
      by_cases hcont : (b / 128) % 2 = 1
      · have hb128 : 128 ≤ b := by omega
        rw [if_neg (by omega)]
        by_cases hidx2 : idx ≤ 21
        · rw [ih _ _ (fun x hx => hbytes x (by simp [hx])) (by omega) (by omega)
            (by rcases hc5 with rfl | rfl | rfl | rfl | rfl <;> (unfold wrap32; omega))
            (by rcases hc5 with rfl | rfl | rfl | rfl | rfl <;> (unfold wrap32; omega))]
          simp only [List.mem_cons, List.length_cons]
          constructor
          · rintro ⟨hall, hl⟩
            refine ⟨?_, by omega⟩
            intro x hx
            rcases hx with rfl | hx2
            · exact hb128
            · exact hall x hx2
          · rintro ⟨hall, hl⟩
            exact ⟨fun x hx => hall x (Or.inr hx), by omega⟩
        · have hidx28 : idx = 28 := by omega
          subst hidx28
          cases tl with
          | nil =>
              simp only [remainingLengthAux, List.mem_cons, List.not_mem_nil,
                List.length_cons, List.length_nil]
              constructor
              · intro _
                refine ⟨?_, by omega⟩
                intro x hx
                rcases hx with rfl | hx2
                · exact hb128
                · exact absurd hx2 (by simp)
              · intro _
                trivial
          | cons c tl2 =>
              rw [remainingLengthAux_panic_of_ge32 c tl2 _ 35 (by omega)]
              simp only [List.length_cons]
              constructor
              · intro h
                exact PResult.noConfusion h
              · rintro ⟨-, hl⟩
                exact absurd hl (by omega)
      · have hblt : b < 128 := by omega
        rw [if_pos (by omega)]
        constructor
        · intro h
          exact PResult.noConfusion h
        · rintro ⟨hall, -⟩
          exact absurd (hall b (by simp)) (by omega)

/-! ## Claim theorems with hypotheses -/

/-- C3: on an input whose remaining-length sequence terminates within at
most 4 bytes — continuation bytes `pre` (at most 3), then a byte `t` with
continuation bit 0, then trailing bytes — `remaining_length` succeeds, the
decoded integer is the sum over byte index `i` of `chunk i * 128 ^ i`
where `chunk i` is the low 7 bits of the `i`-th consumed byte, and exactly
the bytes up to and including the terminator are consumed. -/
theorem remaining_length_decodes_terminated (pre : List Nat) (t : Nat) (rest : List Nat)
    (hlen : pre.length ≤ 3)
    (hpre : ∀ b ∈ pre, 128 ≤ b ∧ b < 256)
    (ht : t < 128) :
    remaining_length (pre ++ t :: rest) =
      .ok rest (∑ i ∈ Finset.range (pre.length + 1),
        (((pre ++ [t]).getD i 0 % 128 : Nat) : Int) * 128 ^ i) :=
  remaining_length_terminated_eq pre t rest hlen hpre ht

/-- Witness for C3: `[0x82, 0x7F]` decodes to `2 + 127 * 128 = 16258` with
empty remainder. -/
theorem remaining_length_decodes_terminated_witness :
    remaining_length [0x82, 0x7F] =
      .ok [] (∑ i ∈ Finset.range 2,
        ((([0x82, 0x7F] : List Nat).getD i 0 % 128 : Nat) : Int) * 128 ^ i) :=
  remaining_length_decodes_terminated [0x82] 0x7F [] (by decide) (by decide) (by decide)

/-- C4 (amended): on every input on which `FixedHeader::parse` succeeds it
consumes at most 6 bytes — 1 packet byte plus at most 5 remaining-length
bytes (not 5 bytes total as claimed: a remaining-length sequence whose
5th byte terminates is consumed successfully). -/
theorem parse_consumes_at_most_six (input rest : List Nat) (hdr : FixedHeader)
    (h : FixedHeader.parse input = .ok rest hdr) :
    input.length ≤ rest.length + 6 := by
  simp only [FixedHeader.parse] at h
  split at h
  · exact PResult.noConfusion h
  · exact PResult.noConfusion h
  · next rest1 pt flags heq =>
      split at h
      · exact PResult.noConfusion h
      · exact PResult.noConfusion h
      · next rest2 rl heq2 =>
          injection h with h1 h2
          subst h1
          have h3 := packet_byte_ok_consumed _ _ _ heq
          obtain ⟨k, hk1, hk2⟩ := remainingLengthAux_ok_consumed _ _ _ _ _ heq2
          omega

/-- Witness for C4 at a concrete input: `[0x20, 0x7F]` parses with empty
remainder, and 2 ≤ 0 + 6. -/
theorem parse_consumes_at_most_six_witness :
    ([0x20, 0x7F] : List Nat).length ≤ ([] : List Nat).length + 6 :=
  parse_consumes_at_most_six [0x20, 0x7F] [] ⟨.Connack, 0, 127⟩ (by decide)

/-- C6 (amended): for byte inputs, `FixedHeader::parse` fails with the nom
`Eof` error exactly when the input is empty, or when the first byte
carries a valid packet type and every remaining-length byte present has
its continuation bit set with at most 5 such bytes (the input ending
before a terminator).  With an invalid first byte the failure is `MapRes`
instead, and with 6 or more continuation bytes the code panics on an
overflowing shift instead of erroring. -/
theorem parse_eof_characterization (input : List Nat)
    (hbytes : ∀ b ∈ input, b < 256) :
    (FixedHeader.parse input = .err .eof ↔
      (input = [] ∨
        ∃ b0 tail, input = b0 :: tail ∧
          (∃ pt, PacketType.tryFrom ((b0 / 16) % 16) = .ok pt) ∧
          (∀ b ∈ tail, 128 ≤ b) ∧ tail.length ≤ 5)) := by
  cases input with
  | nil =>
      simp [FixedHeader.parse, packet_byte]
  | cons b0 tail =>
      have hiff : MqttFixedHeader.remaining_length tail = .err .eof ↔
          ((∀ b ∈ tail, 128 ≤ b) ∧ 7 * tail.length ≤ 35) := by
        unfold MqttFixedHeader.remaining_length
        have h := remainingLengthAux_eof_iff tail 0 0
          (fun x hx => hbytes x (by simp [hx])) (by norm_num) (by norm_num)
          (by norm_num) (by norm_num)
        simpa using h
      cases htf : PacketType.tryFrom ((b0 / 16) % 16) with
      | error v =>
          simp only [FixedHeader.parse, packet_byte, htf]
          constructor
          · intro h
            injection h with h1
            exact NomErrorKind.noConfusion h1
          · rintro (h | ⟨b0', tail', heq, ⟨pt', htf'⟩, -, -⟩)
            · exact List.noConfusion h
            · injection heq with h1 h2
              subst h1
              rw [htf] at htf'
              exact Except.noConfusion htf'
      | ok pt =>
          simp only [FixedHeader.parse, packet_byte, htf]
          constructor
          · intro h
            refine Or.inr ⟨b0, tail, rfl, ⟨pt, htf⟩, ?_⟩
            have heof : MqttFixedHeader.remaining_length tail = .err .eof := by
              cases hrl : MqttFixedHeader.remaining_length tail with
              | ok r v =>
                  rw [hrl] at h
                  exact PResult.noConfusion h
              | err k =>
                  rw [hrl] at h
                  injection h with h1
                  rw [h1]
              | panic =>
                  rw [hrl] at h
                  exact PResult.noConfusion h
            obtain ⟨h1, h2⟩ := hiff.mp heof
            exact ⟨h1, by omega⟩
          · rintro (h | ⟨b0', tail', heq, -, hall, hlen5⟩)
            · exact List.noConfusion h
            · injection heq with h1 h2
              subst h2
              have heof := hiff.mpr ⟨hall, by omega⟩
              simp [heof]

/-- Witness for C6: `[0x20, 0x80]` — a valid first byte and one
continuation byte, input ending before a terminator — yields the `Eof`
error. -/
theorem parse_eof_characterization_witness :
    FixedHeader.parse [0x20, 0x80] = .err .eof :=
  (parse_eof_characterization [0x20, 0x80] (by decide)).mpr
    (Or.inr ⟨0x20, [0x80], rfl, ⟨.Connack, by decide⟩, by decide, by decide⟩)

/-- C7: on an input made of a valid first byte, a remaining-length field
terminating within its at-most-4 bytes, and arbitrary trailing bytes,
`FixedHeader::parse` stops at the first byte with continuation bit 0 and
returns exactly the trailing bytes, unmodified and in order, as the
remainder; in particular Scenario 4 holds: `[0x20, 0x7F, 0xAA, 0xBB]`
parses to the Scenario 1 header with remainder `[0xAA, 0xBB]`. -/
theorem parse_returns_trailing_bytes (b0 : Nat) (pt : PacketType)
    (pre : List Nat) (t : Nat) (rest : List Nat)
    (hb0 : PacketType.tryFrom ((b0 / 16) % 16) = .ok pt)
    (hlen : pre.length ≤ 3)
    (hpre : ∀ b ∈ pre, 128 ≤ b ∧ b < 256)
    (ht : t < 128) :
    FixedHeader.parse (b0 :: (pre ++ t :: rest)) =
      .ok rest ⟨pt, b0 % 16,
        ∑ i ∈ Finset.range (pre.length + 1),
          (((pre ++ [t]).getD i 0 % 128 : Nat) : Int) * 128 ^ i⟩ ∧
    FixedHeader.parse [0x20, 0x7F, 0xAA, 0xBB] =
      .ok [0xAA, 0xBB] ⟨.Connack, 0, 127⟩ := by
  constructor
  · simp only [FixedHeader.parse, packet_byte, hb0]
    rw [remaining_length_terminated_eq pre t rest hlen hpre ht]
  · decide

/-- Witness for C7 at Scenario 4's input. -/
theorem parse_returns_trailing_bytes_witness :
    FixedHeader.parse [0x20, 0x7F, 0xAA, 0xBB] =
      .ok [0xAA, 0xBB] ⟨.Connack, 0, 127⟩ :=
  (parse_returns_trailing_bytes 0x20 .Connack [] 0x7F [0xAA, 0xBB]
    (by decide) (by decide) (by decide) (by decide)).2

end MqttFixedHeader
